import Mathlib

/-!
Verification of the HyperLogLog library (`src/hll`): a shallow embedding
of `murmur_hash`, the typed `hll::hash` wrapper for 4-byte fundamental
values, and the `hyper_log_log` operations `add`, `merge`, `clear`,
`count`, together with proofs of the specified properties.

Machine integers are modelled as `ℕ` with explicit `% 2 ^ 32` where
32-bit overflow matters.  Registers are modelled as a total function
from index to value; only indices below `2 ^ k` correspond to the
`registers_count = 2 ^ k` array slots of the C++ object.  The
floating-point arithmetic of `count` is modelled with exact rational
arithmetic, with `std::log` as an abstract function parameter.
-/

namespace HLL

/-- 32-bit left rotation, as `(x << r) | (x >> (32 - r))` on `uint32`. -/
def rotl32 (x r : ℕ) : ℕ := ((x <<< r) % 2 ^ 32) ||| (x >>> (32 - r))

/-- The chunk encoding of `murmur_hash`: `k *= c1; k = rotl(k, 15); k *= c2`. -/
def mixChunk (k : ℕ) : ℕ := rotl32 (k * 0xcc9e2d51 % 2 ^ 32) 15 * 0x1b873593 % 2 ^ 32

/-- One main-loop step of `murmur_hash`: the chunk is encoded by
`mixChunk` and appended to the running hash by
`h ^= k; h = rotl(h, 13); h = h * 5 + n`. -/
def mixStep (h k : ℕ) : ℕ :=
  (rotl32 (h ^^^ mixChunk k) 13 * 5 + 0xe6546b64) % 2 ^ 32

/-- Little-endian 32-bit load of chunk `i` from the byte buffer, as the
`uint32` read `chunks[i]` performs on a little-endian target.  Bytes
beyond the buffer read as `0`. -/
def chunkAt (key : List ℕ) (i : ℕ) : ℕ :=
  key.getD (4 * i) 0 + 256 * (key.getD (4 * i + 1) 0 + 256 *
    (key.getD (4 * i + 2) 0 + 256 * key.getD (4 * i + 3) 0))

/-- The finalization of `murmur_hash`:
`h ^= h>>16; h *= 0x85ebca6b; h ^= h>>13; h *= 0xc2b2ae35; h ^= h>>16`. -/
def avalanche (h : ℕ) : ℕ :=
  let h1 := (h ^^^ (h >>> 16)) * 0x85ebca6b % 2 ^ 32
  let h2 := (h1 ^^^ (h1 >>> 13)) * 0xc2b2ae35 % 2 ^ 32
  h2 ^^^ (h2 >>> 16)

/-- Shallow embedding of `murmur_hash` from `src/hll/murmur_hash.hxx`:
the main loop over `length / 4` little-endian chunks, the fall-through
`switch (length & 3)` xor-accumulating the 1-3 tail bytes into `k`
before encoding `k` and folding it in with `h ^= k`, then `h ^= length`
followed by the avalanche. -/
def murmur_hash (key : List ℕ) (length seed : ℕ) : ℕ :=
  let chunk_length := length / 4
  let hMain := (List.range chunk_length).foldl (fun h i => mixStep h (chunkAt key i)) seed
  let tail := fun j => key.getD (chunk_length * 4 + j) 0
  let k : ℕ :=
    if length % 4 = 3 then (tail 2 <<< 16) ^^^ (tail 1 <<< 8) ^^^ tail 0
    else if length % 4 = 2 then (tail 1 <<< 8) ^^^ tail 0
    else if length % 4 = 1 then tail 0
    else 0
  let hTail := if length % 4 = 0 then hMain else hMain ^^^ mixChunk k
  avalanche (hTail ^^^ length)

/-- Chunk `i` of the byte buffer packed little-endian by bitwise or, as
the spec words the reference: `byte0 | byte1<<8 | byte2<<16 | byte3<<24`. -/
def refChunk (key : List ℕ) (i : ℕ) : ℕ :=
  key.getD (4 * i) 0 ||| (key.getD (4 * i + 1) 0 <<< 8) |||
    (key.getD (4 * i + 2) 0 <<< 16) ||| (key.getD (4 * i + 3) 0 <<< 24)

/-- The MurmurHash3 x86_32 reference as the spec describes it: each full
4-byte little-endian chunk is encoded as `k = rotl(k*c1,15)*c2` and
accumulated as `h = rotl(h^k,13)*5 + 0xe6546b64`; the 1-3 tail bytes
are packed as `byte0 | byte1<<8 | byte2<<16` (only the bytes actually
present), the pack is encoded exactly as a chunk and folded in with only
`h ^= k`; then `h ^= length` and the avalanche. -/
def murmurRef (key : List ℕ) (length seed : ℕ) : ℕ :=
  let hMain := (List.range (length / 4)).foldl (fun h i => mixStep h (refChunk key i)) seed
  let t := fun j => key.getD (length / 4 * 4 + j) 0
  let hTail :=
    if length % 4 = 1 then hMain ^^^ mixChunk (t 0)
    else if length % 4 = 2 then hMain ^^^ mixChunk (t 0 ||| (t 1 <<< 8))
    else if length % 4 = 3 then hMain ^^^ mixChunk (t 0 ||| (t 1 <<< 8) ||| (t 2 <<< 16))
    else hMain
  avalanche (hTail ^^^ length)

/-- The four bytes of a 32-bit value in little-endian order, as laid out
in memory for a 4-byte fundamental type on the target platform. -/
def intBytes (v : ℕ) : List ℕ :=
  [v % 256, v / 256 % 256, v / 2 ^ 16 % 256, v / 2 ^ 24 % 256]

/-- Shallow embedding of `hll::hash` from `src/hll/hash.hxx` for a
4-byte fundamental value: `murmur_hash(&value, sizeof(T), 0)`. -/
def hash (v : ℕ) : ℕ := murmur_hash (intBytes v) 4 0

/-- One conditional block of `count_bits`: if the low `2 ^ j` bits of the
running value are all zero, shift them out and add `j` to the counter. -/
def cbStage (j : ℕ) (s : ℕ × ℕ) : ℕ × ℕ :=
  if s.1 % 2 ^ j = 0 then (s.1 / 2 ^ j, s.2 + j) else s

/-- Shallow embedding of `hyper_log_log::count_bits` from
`src/hll/hyper_log_log.hxx`: return `0` if bit 0 is set, else start the
counter `c` at `1`, run the progressive 16/8/4/2-bit zero-block tests on
the value, and finish with `c -= value & 1`. -/
def count_bits (value : ℕ) : ℕ :=
  if value % 2 = 1 then 0
  else
    let s := cbStage 2 (cbStage 4 (cbStage 8 (cbStage 16 (value, 1))))
    s.2 - s.1 % 2

/-- The length of the run of zero bits of `h` starting at bit 0 and
scanning upward (`32` for `h = 0`, viewing `h` as a 32-bit value); `0`
when bit 0 of `h` is set. -/
def zeroRun (h : ℕ) : ℕ :=
  if h = 0 then 32
  else if h % 2 = 1 then 0
  else zeroRun (h / 2) + 1

/-- The register index used by `add`: `hash_value >> k_alternative` with
`k_alternative = 32 - k`, the top `k` bits of the 32-bit hash. -/
def hllIndex (k h : ℕ) : ℕ := h / 2 ^ (32 - k)

/-- The rank used by `add`: `min(k_alternative, count_bits(hash)) + 1`. -/
def rank (k h : ℕ) : ℕ := min (32 - k) (count_bits h) + 1

/-- The register update of `hyper_log_log::add` as a function of the
hash value: `m_registers[index] = max(m_registers[index], rank)`. -/
def addH (k : ℕ) (regs : ℕ → ℕ) (h : ℕ) : ℕ → ℕ :=
  Function.update regs (hllIndex k h) (max (regs (hllIndex k h)) (rank k h))

/-- Shallow embedding of `hyper_log_log<T, k>::add` for a 4-byte
fundamental value: hash the value, then update the selected register. -/
def add (k : ℕ) (regs : ℕ → ℕ) (v : ℕ) : ℕ → ℕ := addH k regs (hash v)

/-- Shallow embedding of `hyper_log_log::merge`: element-wise
`hll::helpers::max` of the two register arrays. -/
def merge (regs rhs : ℕ → ℕ) : ℕ → ℕ := fun i => max (regs i) (rhs i)

/-- Shallow embedding of `hyper_log_log::clear`:
`hll::helpers::array_fill(m_registers, 0)`. -/
def clear (_ : ℕ → ℕ) : ℕ → ℕ := fun _ => 0

/-- The all-zero register state of a freshly constructed sketch
(`container_type m_registers{}`). -/
def freshRegs : ℕ → ℕ := fun _ => 0

/-- The register states reachable from a freshly constructed sketch of
precision `k` by `add`, `merge` (with another reachable sketch of the
same precision) and `clear`. -/
inductive Reachable (k : ℕ) : (ℕ → ℕ) → Prop where
  | fresh : Reachable k freshRegs
  | addStep (regs : ℕ → ℕ) (v : ℕ) : Reachable k regs → Reachable k (add k regs v)
  | mergeStep (regs rhs : ℕ → ℕ) :
      Reachable k regs → Reachable k rhs → Reachable k (merge regs rhs)
  | clearStep (regs : ℕ → ℕ) : Reachable k regs → Reachable k (clear regs)

/-- A single mutating operation between two `clear` calls: an `add` of a
value, or a `merge` with some other register array. -/
inductive HLLOp where
  | addOp (v : ℕ)
  | mergeOp (rhs : ℕ → ℕ)

/-- Apply one operation to a register state of a precision-`k` sketch. -/
def applyOp (k : ℕ) (regs : ℕ → ℕ) : HLLOp → (ℕ → ℕ)
  | .addOp v => add k regs v
  | .mergeOp rhs => merge regs rhs

/-- Apply a sequence of operations in order. -/
def applyOps (k : ℕ) (regs : ℕ → ℕ) (ops : List HLLOp) : ℕ → ℕ :=
  ops.foldl (applyOp k) regs

/-- The construction-time failure of the precision check
(`static_assert(k >= 4 && k <= 30)`), named as in the spec. -/
inductive HLLError where
  | InvalidParameter
deriving DecidableEq

/-- Construction of a `hyper_log_log` sketch: the precision check
`k >= 4 && k <= 30` from `src/hll/hyper_log_log.hxx` guards the
all-zero initial register array; a violation yields the
`InvalidParameter` failure and no sketch. -/
def hllConstruct (k : ℕ) : Except HLLError (ℕ → ℕ) :=
  if 4 ≤ k ∧ k ≤ 30 then .ok freshRegs else .error .InvalidParameter

/-- A sketch: its precision (the template parameter `k`, fixed for the
lifetime of the object) and its register state. -/
structure Sketch where
  k : ℕ
  regs : ℕ → ℕ

/-- `clear` on a whole sketch: the registers are reset, the precision
(and hence every constant derived from it) is untouched. -/
def clearS (s : Sketch) : Sketch := { s with regs := clear s.regs }

/-- Shallow embedding of `hyper_log_log::get_alpha_m`. -/
def get_alpha_m (m : ℕ) : ℚ :=
  if m = 16 then 673 / 1000
  else if m = 32 then 697 / 1000
  else if m = 64 then 709 / 1000
  else (7213 / 10000) / (1 + (1079 / 1000) / (m : ℚ))

/-- Shallow embedding of `alpha_m_squared = get_alpha_m() * registers_count *
registers_count`. -/
def alpha_m_squared (m : ℕ) : ℚ := get_alpha_m m * m * m

/-- The harmonic-mean accumulator of `hyper_log_log::count`: the loop
`count += 1.0 / (1u << element)` over the `m` registers. -/
def harmonicSum (m : ℕ) (regs : ℕ → ℕ) : ℚ :=
  (List.range m).foldl (fun acc i => acc + 1 / 2 ^ regs i) 0

/-- The zero-register count of `hyper_log_log::count`:
`std::count(m_registers.begin(), m_registers.end(), 0)`. -/
def zerosCount (m : ℕ) (regs : ℕ → ℕ) : ℕ :=
  ((List.range m).filter fun i => regs i = 0).length

/-- Truncation toward zero, as `static_cast` from a floating-point value
to an integer type. -/
def truncQ (q : ℚ) : ℤ := if 0 ≤ q then ⌊q⌋ else -⌊-q⌋

/-- Shallow embedding of `hyper_log_log::count` from
`src/hll/hyper_log_log.hxx`, with exact rational arithmetic in place of
IEEE-754 `double` and an abstract function `ln` in place of `std::log`:
the raw estimate `alpha_m_squared / count`, the small-range branch
(linear counting only when some register is zero), the large-range
branch, and the final truncating cast.  `count` is a `const` member: it
reads the register state and mutates nothing, which the embedding
reflects by being a pure function of the state. -/
def countQ (ln : ℚ → ℚ) (k : ℕ) (regs : ℕ → ℕ) : ℤ :=
  let m : ℕ := 2 ^ k
  let count : ℚ := harmonicSum m regs
  let estimation : ℚ := alpha_m_squared m / count
  let corrected : ℚ :=
    if estimation ≤ 5 / 2 * m then
      let zero_registers_count := zerosCount m regs
      if 0 < zero_registers_count then (m : ℚ) * ln ((m : ℚ) / zero_registers_count)
      else estimation
    else if (2 : ℚ) ^ 32 / 30 < estimation then
      -(2 : ℚ) ^ 32 * ln (1 - estimation / 2 ^ 32)
    else estimation
  truncQ corrected

/-- The value of `count()` as the spec words it: the estimate
`E = alphaSquaredM / (sum over all registers of 2 ^ (-registers[i]))`,
truncated toward zero, except that when `E <= 2.5 * registerCount` and
at least one register is zero the truncation of
`registerCount * ln(registerCount / zeros)` is returned instead; when
`E <= 2.5 * registerCount` and no register is zero the raw estimate is
kept; and when `E > 2^32 / 30` the truncation of
`-2^32 * ln(1 - E / 2^32)` is returned. -/
def countSpec (ln : ℚ → ℚ) (k : ℕ) (regs : ℕ → ℕ) : ℤ :=
  let m : ℕ := 2 ^ k
  let E : ℚ := alpha_m_squared m / ∑ i ∈ Finset.range m, (2 : ℚ) ^ (-(regs i : ℤ))
  let zeros := zerosCount m regs
  if E ≤ 5 / 2 * m ∧ 0 < zeros then truncQ ((m : ℚ) * ln ((m : ℚ) / zeros))
  else if E ≤ 5 / 2 * m ∧ zeros = 0 then truncQ E
  else if (2 : ℚ) ^ 32 / 30 < E then truncQ (-(2 : ℚ) ^ 32 * ln (1 - E / 2 ^ 32))
  else truncQ E

lemma or_shiftLeft_eq_add (a b n : ℕ) (ha : a < 2 ^ n) : a ||| (b <<< n) = 2 ^ n * b + a := by
  apply Nat.eq_of_testBit_eq
  intro j
  rw [Nat.testBit_or, Nat.testBit_shiftLeft, Nat.testBit_mul_pow_two_add b ha j]
  by_cases hj : j < n
  · have hn : ¬ n ≤ j := by omega
    simp [hj, hn]
  · have hn : n ≤ j := by omega
    have hfa : a.testBit j = false :=
      Nat.testBit_lt_two_pow (lt_of_lt_of_le ha (Nat.pow_le_pow_right (by norm_num) hn))
    simp [hj, hn, hfa]

lemma xor_shiftLeft_eq_add (a b n : ℕ) (ha : a < 2 ^ n) : a ^^^ (b <<< n) = 2 ^ n * b + a := by
  apply Nat.eq_of_testBit_eq
  intro j
  rw [Nat.testBit_xor, Nat.testBit_shiftLeft, Nat.testBit_mul_pow_two_add b ha j]
  by_cases hj : j < n
  · have hn : ¬ n ≤ j := by omega
    simp [hj, hn]
  · have hn : n ≤ j := by omega
    have hfa : a.testBit j = false :=
      Nat.testBit_lt_two_pow (lt_of_lt_of_le ha (Nat.pow_le_pow_right (by norm_num) hn))
    simp [hj, hn, hfa]

lemma getD_lt_256 (key : List ℕ) (h : ∀ b ∈ key, b < 256) (i : ℕ) : key.getD i 0 < 256 := by
  rcases Nat.lt_or_ge i key.length with hi | hi
  · rw [List.getD_eq_getElem key 0 hi]
    exact h _ (List.getElem_mem hi)
  · rw [List.getD_eq_default key 0 hi]
    norm_num

lemma refChunk_eq_chunkAt (key : List ℕ) (h : ∀ b ∈ key, b < 256) (i : ℕ) :
    refChunk key i = chunkAt key i := by
  have h0 : key.getD (4 * i) 0 < 2 ^ 8 := lt_of_lt_of_le (getD_lt_256 key h _) (by norm_num)
  have h1 : key.getD (4 * i + 1) 0 < 2 ^ 8 := lt_of_lt_of_le (getD_lt_256 key h _) (by norm_num)
  have h2 : key.getD (4 * i + 2) 0 < 2 ^ 8 := lt_of_lt_of_le (getD_lt_256 key h _) (by norm_num)
  unfold refChunk chunkAt
  rw [or_shiftLeft_eq_add _ _ 8 h0]
  rw [or_shiftLeft_eq_add _ _ 16 (by nlinarith)]
  rw [or_shiftLeft_eq_add _ _ 24 (by nlinarith)]
  ring

lemma tailPack2 (t0 t1 : ℕ) (h0 : t0 < 2 ^ 8) :
    (t1 <<< 8) ^^^ t0 = t0 ||| (t1 <<< 8) := by
  rw [Nat.xor_comm, xor_shiftLeft_eq_add _ _ 8 h0, or_shiftLeft_eq_add _ _ 8 h0]

lemma tailPack3 (t0 t1 t2 : ℕ) (h0 : t0 < 2 ^ 8) (h1 : t1 < 2 ^ 8) :
    (t2 <<< 16) ^^^ (t1 <<< 8) ^^^ t0 = t0 ||| (t1 <<< 8) ||| (t2 <<< 16) := by
  have hs : t1 <<< 8 < 2 ^ 16 := by
    rw [Nat.shiftLeft_eq]
    nlinarith
  rw [Nat.xor_comm _ t0, Nat.xor_comm (t2 <<< 16) (t1 <<< 8),
    xor_shiftLeft_eq_add _ _ 16 hs]
  have hrepack : 2 ^ 16 * t2 + t1 <<< 8 = (2 ^ 8 * t2 + t1) <<< 8 := by
    rw [Nat.shiftLeft_eq, Nat.shiftLeft_eq]
    ring
  rw [hrepack, xor_shiftLeft_eq_add _ _ 8 h0, or_shiftLeft_eq_add _ _ 8 h0,
    or_shiftLeft_eq_add _ _ 16 (by nlinarith)]
  ring

/-- C3: for every byte buffer, length, and seed, the hash primitive
`murmur_hash` equals the MurmurHash3 x86_32 reference as the spec
describes it: little-endian chunks encoded as `k = rotl(k*c1,15)*c2`
and accumulated as `h = rotl(h^k,13)*5 + 0xe6546b64`; the 1-3 tail
bytes packed as `byte0 | byte1<<8 | byte2<<16`, encoded exactly as a
chunk, folded in with only `h ^= k`; then `h ^= length` and the
avalanche steps. -/
theorem murmur_hash_eq_ref (key : List ℕ) (length seed : ℕ)
    (hbytes : ∀ b ∈ key, b < 256) :
    murmur_hash key length seed = murmurRef key length seed := by
  have hfold : ∀ l : List ℕ,
      l.foldl (fun h i => mixStep h (chunkAt key i)) seed
        = l.foldl (fun h i => mixStep h (refChunk key i)) seed := by
    intro l
    refine List.foldl_ext _ _ seed ?_
    intro h i _
    rw [refChunk_eq_chunkAt key hbytes i]
  have h0 : key.getD (length / 4 * 4) 0 < 2 ^ 8 :=
    lt_of_lt_of_le (getD_lt_256 key hbytes _) (by norm_num)
  have h1 : key.getD (length / 4 * 4 + 1) 0 < 2 ^ 8 :=
    lt_of_lt_of_le (getD_lt_256 key hbytes _) (by norm_num)
  have h4 : length % 4 = 0 ∨ length % 4 = 1 ∨ length % 4 = 2 ∨ length % 4 = 3 := by omega
  simp only [murmur_hash, murmurRef, ← hfold, Nat.add_zero]
  set t0 := key.getD (length / 4 * 4) 0 with ht0
  set t1 := key.getD (length / 4 * 4 + 1) 0 with ht1
  set t2 := key.getD (length / 4 * 4 + 2) 0 with ht2
  rcases h4 with hm | hm | hm | hm <;> rw [hm] <;> norm_num
  · rw [tailPack2 _ _ h0]
  · rw [tailPack3 _ _ _ h0 h1]

/-- Witness for C3 at the concrete buffer "abc" with seed 0. -/
theorem murmur_hash_eq_ref_witness :
    murmur_hash [0x61, 0x62, 0x63] 3 0 = murmurRef [0x61, 0x62, 0x63] 3 0 :=
  murmur_hash_eq_ref [0x61, 0x62, 0x63] 3 0 (by decide)

lemma zeroRun_odd (h : ℕ) (hh : h % 2 = 1) : zeroRun h = 0 := by
  have h0 : h ≠ 0 := by omega
  rw [zeroRun]
  simp [h0, hh]

lemma zeroRun_even (h : ℕ) (h0 : h ≠ 0) (he : h % 2 = 0) :
    zeroRun h = zeroRun (h / 2) + 1 := by
  rw [zeroRun]
  simp [h0, he]

lemma zeroRun_two_pow_mul (j : ℕ) : ∀ u, u ≠ 0 → zeroRun (2 ^ j * u) = zeroRun u + j := by
  induction j with
  | zero => intro u _; simp
  | succ j ih =>
    intro u hu
    have hval : 2 ^ (j + 1) * u = 2 * (2 ^ j * u) := by ring
    have hne : 2 ^ j * u ≠ 0 := by positivity
    have hne2 : 2 * (2 ^ j * u) ≠ 0 := by positivity
    rw [hval, zeroRun_even _ hne2 (Nat.mul_mod_right 2 _),
      Nat.mul_div_cancel_left _ (by norm_num), ih u hu]
    omega

lemma zeroRun_of_mod_four (v : ℕ) (h4 : v % 4 ≠ 0) : zeroRun v = 1 - v % 2 := by
  rcases Nat.mod_two_eq_zero_or_one v with he | ho
  · have h0 : v ≠ 0 := by omega
    rw [zeroRun_even v h0 he, zeroRun_odd (v / 2) (by omega), he]
  · rw [zeroRun_odd v ho, ho]

lemma cbStage_spec (j : ℕ) (s : ℕ × ℕ) (N : ℕ) (hv : s.1 % 2 ^ (2 * j) ≠ 0)
    (hc : s.2 + zeroRun s.1 = N) :
    (cbStage j s).1 % 2 ^ j ≠ 0 ∧ (cbStage j s).2 + zeroRun (cbStage j s).1 = N := by
  unfold cbStage
  by_cases hj : s.1 % 2 ^ j = 0
  · rw [if_pos hj]
    obtain ⟨u, hu2⟩ := Nat.dvd_of_mod_eq_zero hj
    have hdiv : s.1 / 2 ^ j = u := by
      rw [hu2, Nat.mul_div_cancel_left u (Nat.pos_pow_of_pos j (by norm_num))]
    have hu0 : u ≠ 0 := by
      rintro rfl
      rw [Nat.mul_zero] at hu2
      rw [hu2] at hv
      simp at hv
    constructor
    · show s.1 / 2 ^ j % 2 ^ j ≠ 0
      rw [hdiv]
      intro hmod
      obtain ⟨w, hw⟩ := Nat.dvd_of_mod_eq_zero hmod
      apply hv
      rw [hu2, hw, two_mul, pow_add, ← Nat.mul_assoc]
      exact Nat.mul_mod_right _ _
    · show s.2 + j + zeroRun (s.1 / 2 ^ j) = N
      rw [hdiv]
      have hz : zeroRun s.1 = zeroRun u + j := by
        rw [hu2, zeroRun_two_pow_mul j u hu0]
      omega
  · rw [if_neg hj]
    exact ⟨hj, hc⟩

lemma count_bits_eq_zeroRun (v : ℕ) (h0 : v ≠ 0) (hv : v < 2 ^ 32) :
    count_bits v = zeroRun v := by
  rcases Nat.mod_two_eq_zero_or_one v with he | ho
  · unfold count_bits
    rw [if_neg (by omega)]
    have h32 : v % 2 ^ 32 ≠ 0 := by rwa [Nat.mod_eq_of_lt hv]
    have s16 := cbStage_spec 16 (v, 1) (1 + zeroRun v) (by norm_num; exact h32) rfl
    have s8 := cbStage_spec 8 _ _ (by norm_num; exact s16.1) s16.2
    have s4 := cbStage_spec 4 _ _ (by norm_num; exact s8.1) s8.2
    have s2 := cbStage_spec 2 _ _ (by norm_num; exact s4.1) s4.2
    obtain ⟨p1, p2⟩ := s2
    set X := cbStage 2 (cbStage 4 (cbStage 8 (cbStage 16 (v, 1))))
    have hzr : zeroRun X.1 = 1 - X.1 % 2 := zeroRun_of_mod_four X.1 (by simpa using p1)
    show X.2 - X.1 % 2 = zeroRun v
    rcases Nat.mod_two_eq_zero_or_one X.1 with hx | hx <;> rw [hx] at hzr <;> omega
  · unfold count_bits
    rw [if_pos ho, zeroRun_odd v ho]

lemma count_bits_zero : count_bits 0 = 31 := by decide

lemma zeroRun_zero : zeroRun 0 = 32 := by
  rw [zeroRun]
  norm_num

lemma min_rank_bridge (w h : ℕ) (hw : w ≤ 28) (hh : h < 2 ^ 32) :
    min w (count_bits h) = min w (zeroRun h) := by
  by_cases h0 : h = 0
  · subst h0
    rw [count_bits_zero, zeroRun_zero]
    omega
  · rw [count_bits_eq_zeroRun h h0 hh]

lemma avalanche_lt (h : ℕ) : avalanche h < 2 ^ 32 := by
  simp only [avalanche]
  apply Nat.xor_lt_two_pow
  · exact Nat.mod_lt _ (by norm_num)
  · rw [Nat.shiftRight_eq_div_pow]
    exact lt_of_le_of_lt (Nat.div_le_self _ _) (Nat.mod_lt _ (by norm_num))

lemma hash_lt (v : ℕ) : hash v < 2 ^ 32 := by
  simp only [hash, murmur_hash]
  exact avalanche_lt _

/-- C1: for every precision `k` in `[4, 30]` and every value `v`, `add(v)`
computes `h = hash(v)`, writes register index `h >> (32 - k)` (the top
`k` bits of the 32-bit hash), computes `rank = min(32 - k, c) + 1` with
`c` the zero-run count of `h` scanned from bit 0 upward (`c = 0` when
bit 0 of `h` is set), sets that register to the maximum of its old value
and `rank`, and changes no other register. -/
theorem add_spec (k v : ℕ) (regs : ℕ → ℕ) (hk4 : 4 ≤ k) (hk30 : k ≤ 30) :
    add k regs v (hash v / 2 ^ (32 - k)) =
      max (regs (hash v / 2 ^ (32 - k))) (min (32 - k) (zeroRun (hash v)) + 1) ∧
    ∀ j, j ≠ hash v / 2 ^ (32 - k) → add k regs v j = regs j := by
  have hidx : hllIndex k (hash v) = hash v / 2 ^ (32 - k) := rfl
  constructor
  · show addH k regs (hash v) _ = _
    unfold addH
    rw [← hidx, Function.update_same]
    unfold rank
    rw [min_rank_bridge (32 - k) (hash v) (by omega) (hash_lt v)]
  · intro j hj
    show addH k regs (hash v) j = regs j
    unfold addH
    rw [Function.update_noteq (by rw [hidx]; exact hj)]

/-- Witness for C1 at `k = 12`, `v = 5`, on the fresh register state. -/
theorem add_spec_witness :
    add 12 freshRegs 5 (hash 5 / 2 ^ (32 - 12)) =
      max (freshRegs (hash 5 / 2 ^ (32 - 12))) (min (32 - 12) (zeroRun (hash 5)) + 1) :=
  (add_spec 12 5 freshRegs (by decide) (by decide)).1

lemma rank_le (k h : ℕ) (hk : k ≤ 32) : rank k h ≤ 33 - k := by
  unfold rank
  omega

lemma reachable_le (k : ℕ) (hk : k ≤ 32) {regs : ℕ → ℕ} (hr : Reachable k regs) :
    ∀ i, regs i ≤ 33 - k := by
  induction hr with
  | fresh => intro i; simp [freshRegs]
  | addStep regs v _ ih =>
    intro i
    show addH k regs (hash v) i ≤ 33 - k
    unfold addH
    by_cases hi : i = hllIndex k (hash v)
    · rw [hi, Function.update_same]
      exact max_le (ih _) (rank_le k (hash v) hk)
    · rw [Function.update_noteq hi]
      exact ih i
  | mergeStep a b _ _ iha ihb =>
    intro i
    exact max_le (iha i) (ihb i)
  | clearStep regs _ _ =>
    intro i
    simp [clear]

/-- Counterexample to C4 as stated: at precision `k = 12`, adding the
value `1080592` (whose hash `0x1ce00000` has 21 trailing zero bits) to a
fresh sketch drives its register above `32 - k = 20`. -/
theorem register_range_counterexample :
    32 - 12 < add 12 freshRegs 1080592 (hllIndex 12 (hash 1080592)) := by decide

/-- C4 amended: for every precision `k` in `[4, 30]` and every sequence
of `add`, `merge`, and `clear` operations applied to freshly constructed
sketches, every register value stays in the range `[0, 33 - k]` (the
upper bound `32 - k` of the original claim is exceeded when the low
`32 - k` bits of a hash are all zero; the clamped rank then is
`(32 - k) + 1`). -/
theorem register_range (k : ℕ) (regs : ℕ → ℕ) (hk4 : 4 ≤ k) (hk30 : k ≤ 30)
    (hr : Reachable k regs) (i : ℕ) : regs i ≤ 33 - k :=
  reachable_le k (by omega) hr i

/-- Witness for the amended C4: the counterexample state itself meets
the corrected bound `33 - k` with equality. -/
theorem register_range_witness :
    add 12 freshRegs 1080592 (hllIndex 12 (hash 1080592)) ≤ 33 - 12 :=
  register_range 12 (add 12 freshRegs 1080592) (by norm_num) (by norm_num)
    (Reachable.addStep freshRegs 1080592 Reachable.fresh) (hllIndex 12 (hash 1080592))

/-- C10: for every precision `k` in `[4, 30]` and every sequence of
`add`, `merge`, and `clear` operations on freshly constructed sketches,
every register value is at most `33 - k` (the clamped maximum rank), and
in particular the shift `1u << registers[i]` performed in `count()` has
a shift amount strictly below 32. -/
theorem register_bound_shift (k : ℕ) (regs : ℕ → ℕ) (hk4 : 4 ≤ k) (hk30 : k ≤ 30)
    (hr : Reachable k regs) (i : ℕ) : regs i ≤ 33 - k ∧ regs i < 32 := by
  have h := reachable_le k (by omega) hr i
  exact ⟨h, by omega⟩

/-- Witness for C10 on a fresh precision-4 sketch. -/
theorem register_bound_shift_witness : freshRegs 0 ≤ 33 - 4 ∧ freshRegs 0 < 32 :=
  register_bound_shift 4 freshRegs (by norm_num) (by norm_num) Reachable.fresh 0

/-- C5: for sketches of the same precision `k`, `merge` is commutative
and associative on register state, compared register-by-register over
the `2 ^ k` registers. -/
theorem merge_comm_assoc (k : ℕ) (a b c : ℕ → ℕ) :
    ∀ i, i < 2 ^ k →
      merge a b i = merge b a i ∧ merge (merge a b) c i = merge a (merge b c) i := by
  intro i _
  unfold merge
  exact ⟨max_comm _ _, max_assoc _ _ _⟩

/-- Witness for C5 at `k = 4`, `i = 0`, on concrete register states. -/
theorem merge_comm_assoc_witness :
    merge (fun _ => 1) (fun _ => 2) 0 = merge (fun _ => 2) (fun _ => 1) 0 ∧
    merge (merge (fun _ => 1) (fun _ => 2)) (fun _ => 3) 0 =
      merge (fun _ => 1) (merge (fun _ => 2) (fun _ => 3)) 0 :=
  merge_comm_assoc 4 (fun _ => 1) (fun _ => 2) (fun _ => 3) 0 (by norm_num)

lemma addH_addH (k h : ℕ) (s : ℕ → ℕ) : addH k (addH k s h) h = addH k s h := by
  unfold addH
  rw [Function.update_same, max_assoc, max_self]
  exact Function.update_idem _ _ _

lemma addH_iterate (k h : ℕ) (regs : ℕ → ℕ) : ∀ m,
    (fun r => addH k r h)^[m] (addH k regs h) = addH k regs h := by
  intro m
  induction m with
  | zero => rfl
  | succ m ih =>
    rw [Function.iterate_succ_apply, addH_addH k h regs]
    exact ih

/-- C6: for every sketch state, every value `v`, and every `n >= 1`,
performing `add(v)` `n` times yields exactly the same register state as
performing `add(v)` once. -/
theorem add_idem (k v n : ℕ) (regs : ℕ → ℕ) (hn : 1 ≤ n) :
    (fun r => add k r v)^[n] regs = add k regs v := by
  obtain ⟨m, rfl⟩ : ∃ m, n = m + 1 := ⟨n - 1, by omega⟩
  show (fun r => addH k r (hash v))^[m + 1] regs = addH k regs (hash v)
  rw [Function.iterate_succ_apply]
  exact addH_iterate k (hash v) regs m

/-- Witness for C6: three adds of the value 7 equal one add. -/
theorem add_idem_witness : (fun r => add 4 r 7)^[3] freshRegs = add 4 freshRegs 7 :=
  add_idem 4 7 3 freshRegs (by norm_num)

/-- C7: for every register index `i`, the register value is
non-decreasing across any sequence of `add` and `merge` calls between
two `clear` calls: no operation other than `clear` decreases a
register. -/
theorem registers_monotone (k : ℕ) (ops : List HLLOp) (regs : ℕ → ℕ) (i : ℕ) :
    regs i ≤ applyOps k regs ops i := by
  induction ops generalizing regs with
  | nil => exact le_refl _
  | cons op ops ih =>
    have hstep : regs i ≤ applyOp k regs op i := by
      cases op with
      | addOp v =>
        show regs i ≤ addH k regs (hash v) i
        unfold addH
        by_cases hi : i = hllIndex k (hash v)
        · rw [hi, Function.update_same]
          exact le_max_left _ _
        · rw [Function.update_noteq hi]
      | mergeOp rhs => exact le_max_left _ _
    show regs i ≤ applyOps k (applyOp k regs op) ops i
    exact le_trans hstep (ih _)

/-- C9: construction of a sketch succeeds exactly for precisions `k`
with `4 <= k <= 30`; outside the range it fails with `InvalidParameter`
and produces no sketch. -/
theorem construct_iff (k : ℕ) :
    (hllConstruct k = .ok freshRegs ↔ 4 ≤ k ∧ k ≤ 30) ∧
    (hllConstruct k = .error .InvalidParameter ↔ (k < 4 ∨ 30 < k)) := by
  unfold hllConstruct
  by_cases h : 4 ≤ k ∧ k ≤ 30
  · rw [if_pos h]
    refine ⟨⟨fun _ => h, fun _ => rfl⟩, ⟨fun h2 => ?_, fun h2 => ?_⟩⟩
    · simp at h2
    · omega
  · rw [if_neg h]
    refine ⟨⟨fun h2 => ?_, fun h2 => absurd h2 h⟩, ⟨fun _ => by omega, fun _ => rfl⟩⟩
    simp at h2

/-- Witness for C9 at the boundary precisions 4, 30, 3 and 31. -/
theorem construct_iff_witness :
    hllConstruct 4 = .ok freshRegs ∧ hllConstruct 30 = .ok freshRegs ∧
    hllConstruct 3 = .error .InvalidParameter ∧
    hllConstruct 31 = .error .InvalidParameter :=
  ⟨(construct_iff 4).1.mpr (by norm_num), (construct_iff 30).1.mpr (by norm_num),
    (construct_iff 3).2.mpr (by norm_num), (construct_iff 31).2.mpr (by norm_num)⟩

lemma harmonicSum_succ (m : ℕ) (regs : ℕ → ℕ) :
    harmonicSum (m + 1) regs = harmonicSum m regs + 1 / 2 ^ regs m := by
  unfold harmonicSum
  rw [List.range_succ, List.foldl_append]
  rfl

lemma one_div_two_pow (r : ℕ) : (1 : ℚ) / 2 ^ r = (2 : ℚ) ^ (-(r : ℤ)) := by
  rw [zpow_neg, zpow_natCast, one_div]

lemma harmonicSum_eq_sum (m : ℕ) (regs : ℕ → ℕ) :
    harmonicSum m regs = ∑ i ∈ Finset.range m, (2 : ℚ) ^ (-(regs i : ℤ)) := by
  induction m with
  | zero =>
    unfold harmonicSum
    simp
  | succ m ih =>
    rw [harmonicSum_succ, ih, Finset.sum_range_succ, one_div_two_pow]

/-- C2: `count()` mutates nothing (the embedding is a pure function of
the register state) and returns exactly what the spec says: the
truncation toward zero of `E = alphaSquaredM / (sum of 2^(-registers[i]))`,
replaced by linear counting `registerCount * ln(registerCount / zeros)`
when `E <= 2.5 * registerCount` and some register is zero, kept
uncorrected when `E <= 2.5 * registerCount` and no register is zero, and
replaced by `-2^32 * ln(1 - E / 2^32)` when `E > 2^32 / 30`. -/
theorem count_eq_spec (ln : ℚ → ℚ) (k : ℕ) (regs : ℕ → ℕ) :
    countQ ln k regs = countSpec ln k regs := by
  simp only [countQ, countSpec]
  rw [← harmonicSum_eq_sum]
  by_cases h1 : alpha_m_squared (2 ^ k) / harmonicSum (2 ^ k) regs ≤ 5 / 2 * ((2 ^ k : ℕ) : ℚ)
  · by_cases h2 : 0 < zerosCount (2 ^ k) regs
    · rw [if_pos h1, if_pos h2, if_pos ⟨h1, h2⟩]
    · rw [if_pos h1, if_neg h2, if_neg (fun hc => h2 hc.2), if_pos ⟨h1, by omega⟩]
  · rw [if_neg h1,
      if_neg (show ¬(alpha_m_squared (2 ^ k) / harmonicSum (2 ^ k) regs ≤
          5 / 2 * ((2 ^ k : ℕ) : ℚ) ∧ 0 < zerosCount (2 ^ k) regs) from fun hc => h1 hc.1),
      if_neg (show ¬(alpha_m_squared (2 ^ k) / harmonicSum (2 ^ k) regs ≤
          5 / 2 * ((2 ^ k : ℕ) : ℚ) ∧ zerosCount (2 ^ k) regs = 0) from fun hc => h1 hc.1)]
    by_cases h3 : (2 : ℚ) ^ 32 / 30 < alpha_m_squared (2 ^ k) / harmonicSum (2 ^ k) regs
    · rw [if_pos h3, if_pos h3]
    · rw [if_neg h3, if_neg h3]

lemma harmonicSum_const_zero (m : ℕ) : harmonicSum m (fun _ => 0) = m := by
  induction m with
  | zero =>
    unfold harmonicSum
    simp
  | succ m ih =>
    rw [harmonicSum_succ, ih]
    push_cast
    norm_num

lemma zerosCount_const_zero (m : ℕ) : zerosCount m (fun _ => 0) = m := by
  unfold zerosCount
  rw [List.filter_eq_self.mpr, List.length_range]
  intro a _
  simp

lemma get_alpha_m_le (m : ℕ) (hm : 0 < (m : ℚ)) : get_alpha_m m ≤ 5 / 2 := by
  unfold get_alpha_m
  split_ifs <;> try norm_num
  calc (7213 / 10000 : ℚ) / (1 + (1079 / 1000) / m)
      ≤ 7213 / 10000 := div_le_self (by norm_num) (le_add_of_nonneg_right (by positivity))
    _ ≤ 5 / 2 := by norm_num

lemma countQ_allzero (ln : ℚ → ℚ) (hln : ln 1 = 0) (k : ℕ) :
    countQ ln k (fun _ => 0) = 0 := by
  have hm0 : 0 < 2 ^ k := Nat.pos_pow_of_pos k (by norm_num)
  have hmq : (0 : ℚ) < ((2 ^ k : ℕ) : ℚ) := by exact_mod_cast hm0
  simp only [countQ]
  rw [harmonicSum_const_zero, zerosCount_const_zero]
  have hE : alpha_m_squared (2 ^ k) / ((2 ^ k : ℕ) : ℚ) ≤ 5 / 2 * ((2 ^ k : ℕ) : ℚ) := by
    rw [alpha_m_squared, mul_div_assoc, div_self hmq.ne', mul_one]
    exact mul_le_mul_of_nonneg_right (get_alpha_m_le _ hmq) hmq.le
  rw [if_pos hE, if_pos hm0, div_self hmq.ne', hln, mul_zero]
  unfold truncQ
  rw [if_pos le_rfl]
  exact Int.floor_zero

/-- C8: after `clear()` every register equals 0, the precision (and with
it every derived constant) is unchanged, and a subsequent `count()`
returns 0: all registers zero makes `zeros = registerCount`, the
small-range branch applies and evaluates
`registerCount * ln(registerCount / registerCount) = registerCount * ln 1 = 0`. -/
theorem clear_spec (s : Sketch) (ln : ℚ → ℚ) (hln : ln 1 = 0)
    (hk4 : 4 ≤ s.k) (hk30 : s.k ≤ 30) :
    (∀ i, (clearS s).regs i = 0) ∧ (clearS s).k = s.k ∧
      countQ ln (clearS s).k (clearS s).regs = 0 :=
  ⟨fun _ => rfl, rfl, countQ_allzero ln hln s.k⟩

/-- Witness for C8 on a concrete precision-4 sketch with nonzero
registers, using an abstract logarithm that sends 1 to 0. -/
theorem clear_spec_witness :
    (clearS ⟨4, fun _ => 1⟩).k = 4 ∧
    countQ (fun _ => 0) (clearS ⟨4, fun _ => 1⟩).k (clearS ⟨4, fun _ => 1⟩).regs = 0 :=
  ⟨(clear_spec ⟨4, fun _ => 1⟩ (fun _ => 0) rfl (by norm_num) (by norm_num)).2.1,
    (clear_spec ⟨4, fun _ => 1⟩ (fun _ => 0) rfl (by norm_num) (by norm_num)).2.2⟩

end HLL
